import Mathlib

/-!
Shallow embedding of the CSP crossword solver of `generate.py`
(class `CrosswordCreator`): node-consistency filtering, AC-3 arc
consistency, and backtracking search, together with proofs about them.

The constraint graph (class `Crossword`, an external collaborator of
the solver) is modelled abstractly by exactly the interface the solver
consumes: the variable set, each variable's length, the word list, the
overlap table and the neighbor sets.  Python sets and dicts are
modelled as lists and association lists; a word's character at an
index is read with a fixed default character, since every call site of
the solver keeps indices in range.
-/

namespace Generate

/-- Words are lists of characters. -/
abbrev Word := List Char

/-- Character of word `w` at index `i`.  The Python code writes
`w[i]`; all in-repo call sites keep `i` in range, out of range we
return a fixed default character. -/
def charAt (w : Word) (i : Nat) : Char := w.getD i 'a'

/-- The interface of the `Crossword` collaborator as consumed by
`CrosswordCreator`: `vars` models `crossword.variables` (a finite set,
listed without duplicates and exhausting the variable type), `len v`
models `v.length`, `words` models the word list `crossword.words`,
`overlaps x y` models `crossword.overlaps[x, y]` (`none` when the two
slots do not intersect), and `neighbors x` models
`crossword.neighbors(x)`.  The propositional fields record the
guarantees the `Crossword` class establishes when it is built from the
grid: neighbor sets are exactly the distinct overlapping pairs, and the
overlap table is symmetric with swapped indices. -/
structure Crossword (V : Type) [DecidableEq V] where
  vars : List V
  vars_nodup : vars.Nodup
  vars_complete : ∀ v, v ∈ vars
  len : V → Nat
  words : List Word
  words_nodup : words.Nodup
  overlaps : V → V → Option (Nat × Nat)
  neighbors : V → List V
  mem_neighbors : ∀ x y, y ∈ neighbors x ↔ (x ≠ y ∧ (overlaps x y).isSome)
  overlaps_symm : ∀ x y, overlaps y x = (overlaps x y).map (fun p => (p.2, p.1))

variable {V : Type} [DecidableEq V]

/-- The mutable `self.domains` dict: candidate words per variable. -/
abbrev Domains (V : Type) := V → List Word

/-- A (partial) assignment: the Python dict mapping variables to
words, modelled as an association list in insertion order. -/
abbrev Assignment (V : Type) := List (V × Word)

/-- Dict lookup `assignment[v]` / `v in assignment`. -/
def lookupA (a : Assignment V) (v : V) : Option Word :=
  match a with
  | [] => none
  | (u, w) :: rest => if u = v then some w else lookupA rest v

/-- `new_assignment = assignment.copy(); new_assignment[var] = w`:
in `backtrack` the key is always fresh, so the dict grows by one entry
at the end (Python dicts keep insertion order). -/
def insertA (a : Assignment V) (v : V) (w : Word) : Assignment V :=
  a ++ [(v, w)]

/-- Pointwise update of the domains map at one variable. -/
def updateD (doms : Domains V) (x : V) (d : List Word) : Domains V :=
  fun v => if v = x then d else doms v

/-- `self.domains` as initialized in `__init__`: a copy of the full
word list for every variable. -/
def initial_domains (c : Crossword V) : Domains V :=
  fun _ => c.words

/-- `enforce_node_consistency`: for each variable, collect the words
of the wrong length into `remove_words` and then remove each of them
from the variable's domain (removal from a Python set = list
difference on our duplicate-free domain lists). -/
def enforce_node_consistency (c : Crossword V) (doms : Domains V) : Domains V :=
  c.vars.foldl
    (fun ds var =>
      let remove_words := (ds var).filter (fun w => w.length ≠ c.len var)
      updateD ds var ((ds var).diff remove_words))
    doms

/-- `revise(x, y)`: collect into `remove_words` every word of
`domains[x]` that matches no word of `domains[y]` at the overlap
indices, remove them, and report whether anything was removed.  The
Python code reads `overlaps[x, y]` unconditionally; it is only ever
called on neighboring pairs, whose overlap exists, so the `none`
branch (where Python would fail on `None[0]`) is modelled as a no-op. -/
def revise (c : Crossword V) (doms : Domains V) (x y : V) : Domains V × Bool :=
  match c.overlaps x y with
  | none => (doms, false)
  | some ov =>
    let remove_words := (doms x).filter
      (fun xw => !((doms y).any (fun yw => charAt xw ov.1 == charAt yw ov.2)))
    (updateD doms x ((doms x).diff remove_words), !remove_words.isEmpty)

/-- Total size of all domains; the decreasing measure of AC-3. -/
def sumLens (c : Crossword V) (doms : Domains V) : Nat :=
  (c.vars.map (fun v => (doms v).length)).sum

/-- The worklist loop of `ac3`: Python iterates over the queue list
while appending to its end, which processes the queue in order
followed by the appended arcs.  If a revision empties the revised
domain, return `False` at once; if a revision occurred, enqueue
`(z, x)` for every neighbor `z` of `x` other than `y`. -/
def ac3Go (c : Crossword V) (queue : List (V × V)) (doms : Domains V) :
    Domains V × Bool :=
  match queue with
  | [] => (doms, true)
  | (x, y) :: rest =>
    let r := revise c doms x y
    if hr : r.2 then
      if (r.1 x).length = 0 then (r.1, false)
      else
        ac3Go c (rest ++ ((c.neighbors x).filter (fun z => z ≠ y)).map (fun z => (z, x))) r.1
    else
      ac3Go c rest doms
termination_by (sumLens c doms, queue.length)
decreasing_by
· -- a revision strictly shrinks the revised domain, hence the measure
  simp_wf
  apply Prod.Lex.left
  -- deleting a present element (and possibly more) strictly shortens a list
  have key : ∀ (r l : List Word) (aw : Word), aw ∈ r → aw ∈ l →
      (l.diff r).length < l.length := by
    intro r
    induction r with
    | nil => intro l aw h _; simp at h
    | cons b bs ih =>
      intro l aw har hal
      rw [List.diff_cons]
      by_cases hbl : b ∈ l
      · calc ((l.erase b).diff bs).length
            ≤ (l.erase b).length := (List.diff_sublist _ _).length_le
          _ < l.length := by
              rw [List.length_erase_of_mem hbl]
              exact Nat.sub_lt (List.length_pos.mpr (List.ne_nil_of_mem hbl)) Nat.one_pos
      · rw [List.erase_of_not_mem hbl]
        rcases List.mem_cons.mp har with hab | hab
        · exact absurd (hab ▸ hal) hbl
        · exact ih l aw hab hal
  replace hr : (revise c doms x y).2 = true := hr
  have hx : ((revise c doms x y).1 x).length < (doms x).length := by
    cases hov : c.overlaps x y with
    | none => simp only [revise, hov] at hr; simp at hr
    | some ov =>
      simp only [revise, hov] at hr ⊢
      have hne : (doms x).filter
          (fun xw => !((doms y).any (fun yw => charAt xw ov.1 == charAt yw ov.2))) ≠ [] := by
        intro h0
        rw [h0] at hr
        simp at hr
      obtain ⟨aw, ha⟩ := List.exists_mem_of_ne_nil _ hne
      have haw : aw ∈ doms x := List.mem_of_mem_filter ha
      simp only [updateD, if_pos rfl]
      exact key _ _ aw ha haw
  have hle : ∀ v, ((revise c doms x y).1 v).length ≤ (doms v).length := by
    intro v
    by_cases hv : v = x
    · subst hv; exact Nat.le_of_lt hx
    · cases hov : c.overlaps x y with
      | none => simp only [revise, hov]; exact Nat.le_refl _
      | some ov =>
        simp only [revise, hov, updateD]
        rw [if_neg hv]
  have hsum : ∀ (L : List V), x ∈ L →
      (L.map (fun v => ((revise c doms x y).1 v).length)).sum <
      (L.map (fun v => (doms v).length)).sum := by
    intro L hL
    induction L with
    | nil => simp at hL
    | cons u us ih =>
      simp only [List.map_cons, List.sum_cons]
      rcases List.mem_cons.mp hL with h | h
      · subst h
        have hrest : ((us.map (fun v => ((revise c doms x y).1 v).length)).sum ≤
            (us.map (fun v => (doms v).length)).sum) :=
          List.sum_le_sum (fun i _ => hle i)
        exact Nat.add_lt_add_of_lt_of_le hx hrest
      · exact Nat.add_lt_add_of_le_of_lt (hle u) (ih h)
  show sumLens c (revise c doms x y).1 < sumLens c doms
  unfold sumLens
  exact hsum c.vars (c.vars_complete x)
· simp_wf
  apply Prod.Lex.right
  simp

/-- `ac3(arcs=None)`: seed the queue with every ordered arc
`(var, linked_var)` for each variable and each of its neighbors, then
run the worklist loop.  (The solver only ever calls `ac3` with the
default `arcs=None`, so only that mode is modelled.) -/
def ac3 (c : Crossword V) (doms : Domains V) : Domains V × Bool :=
  ac3Go c (c.vars.flatMap (fun v => (c.neighbors v).map (fun u => (v, u)))) doms

/-- `assignment_complete`: every variable has an entry.  The source's
second test, `len(assignment[var]) == None`, compares an integer with
`None` and is always `False` in Python, so it never rejects and is not
represented. -/
def assignment_complete (c : Crossword V) (a : Assignment V) : Bool :=
  c.vars.all (fun v => (lookupA a v).isSome)

/-- `consistent(assignment)`: all assigned words pairwise distinct
(`len(values) != len(set(values))`), each word of its variable's
length, and for every assigned neighbor the overlap characters agree.
The overlap of a neighboring pair always exists, so the `none` branch
(where Python would fail) returns `true` harmlessly. -/
def consistent (c : Crossword V) (a : Assignment V) : Bool :=
  decide ((a.map Prod.snd).Nodup) &&
  a.all (fun p =>
    (p.2.length == c.len p.1) &&
    (c.neighbors p.1).all (fun u =>
      match c.overlaps p.1 u with
      | none => true
      | some ov =>
        match lookupA a u with
        | none => true
        | some wu => charAt p.2 ov.1 == charAt wu ov.2))

/-- The count computed inside `order_domain_values`: for each neighbor
of `var` (the source does not skip neighbors that are already
assigned) and each word in that neighbor's domain, count one conflict
when the overlap characters disagree. -/
def conflictCount (c : Crossword V) (doms : Domains V) (var : V) (w : Word) : Nat :=
  ((c.neighbors var).map (fun u =>
    match c.overlaps var u with
    | none => 0
    | some ov => (doms u).countP (fun wu => !(charAt w ov.1 == charAt wu ov.2)))).sum

/-- Ordering of `(value, removed-count)` pairs used by the
`sort_list.sort(key=lambda val: val[1])` call. -/
def leCount (p q : Word × Nat) : Prop := p.2 ≤ q.2

instance : DecidableRel (@leCount) :=
  fun p q => inferInstanceAs (Decidable (p.2 ≤ q.2))

instance : IsTotal (Word × Nat) leCount :=
  ⟨fun p q => Nat.le_total p.2 q.2⟩

instance : IsTrans (Word × Nat) leCount :=
  ⟨fun _ _ _ h1 h2 => Nat.le_trans h1 h2⟩

/-- `order_domain_values(var, assignment)`: pair each domain word of
`var` with its conflict count, sort ascending by the count (Python's
stable sort is modelled by a stable insertion sort), and return the
words.  Note the `assignment` parameter is unused by the source
implementation. -/
def order_domain_values (c : Crossword V) (doms : Domains V) (var : V)
    (_assignment : Assignment V) : List Word :=
  (List.insertionSort leCount
    ((doms var).map (fun w => (w, conflictCount c doms var w)))).map Prod.fst

/-- Python's `min(temp_list, key=lambda value: value[1])`: the first
element with minimal second component, or `none` for an empty list
(where Python `min` raises `ValueError`). -/
def minByCount : List (V × Nat) → Option (V × Nat)
  | [] => none
  | p :: rest =>
    match minByCount rest with
    | none => some p
    | some q => if p.2 ≤ q.2 then some p else some q

/-- `select_unassigned_variable(assignment)`: collect the unassigned
variables paired with their domain sizes, in variable order, and take
the minimum by domain size. -/
def select_unassigned_variable (c : Crossword V) (doms : Domains V)
    (a : Assignment V) : Option V :=
  (minByCount (c.vars.filterMap
    (fun v => if lookupA a v = none then some (v, (doms v).length) else none))).map
    Prod.fst

/-- Number of variables without an entry; the decreasing measure of
the backtracking search. -/
def unassignedCount (c : Crossword V) (a : Assignment V) : Nat :=
  c.vars.countP (fun v => (lookupA a v).isNone)

mutual

/-- `backtrack(assignment)`: if the assignment is complete return it;
otherwise pick the selected unassigned variable and try its ordered
domain values in turn.  The `none` branch of the selection is
unreachable (an incomplete assignment leaves `temp_list` non-empty;
Python's `min` would raise on an empty list). -/
def backtrack (c : Crossword V) (doms : Domains V) (a : Assignment V) :
    Option (Assignment V) :=
  if assignment_complete c a then some a
  else
    match hsel : select_unassigned_variable c doms a with
    | none => none
    | some var =>
      tryCands c doms a var (order_domain_values c doms var a)
        (by
          -- the selected variable is an unassigned member of the variable list
          have hmin : ∀ (l : List (V × Nat)) (p : V × Nat),
              minByCount l = some p → p ∈ l := by
            intro l
            induction l with
            | nil => intro p hp; simp [minByCount] at hp
            | cons q qs ih =>
              intro p hp
              cases hq : minByCount qs with
              | none =>
                simp only [minByCount, hq] at hp
                injection hp with hp
                exact hp ▸ List.mem_cons_self q qs
              | some m =>
                simp only [minByCount, hq] at hp
                by_cases hle : q.2 ≤ m.2
                · rw [if_pos hle] at hp
                  injection hp with hp
                  exact hp ▸ List.mem_cons_self q qs
                · rw [if_neg hle] at hp
                  injection hp with hp
                  exact hp ▸ List.mem_cons_of_mem q (ih m hq)
          unfold select_unassigned_variable at hsel
          cases hm : minByCount (c.vars.filterMap
              (fun v => if lookupA a v = none
                then some (v, (doms v).length) else none)) with
          | none =>
            rw [hm] at hsel
            exact Option.noConfusion hsel
          | some p =>
            rw [hm] at hsel
            have hsel2 : p.1 = var := by
              have hs : some p.1 = some var := hsel
              injection hs
            have hp := hmin _ _ hm
            rw [List.mem_filterMap] at hp
            obtain ⟨v, hv, hveq⟩ := hp
            by_cases hl : lookupA a v = none
            · rw [if_pos hl] at hveq
              injection hveq with hveq
              subst hveq
              have hv2 : v = var := hsel2
              subst hv2
              exact ⟨hv, hl⟩
            · rw [if_neg hl] at hveq
              exact absurd hveq (by simp))
termination_by (unassignedCount c a + 1, 0)
decreasing_by
· simp_wf
  apply Prod.Lex.left
  exact Nat.lt_succ_self _

/-- The `for values in self.order_domain_values(var, assignment)` loop
of `backtrack`: extend a copy of the assignment with `var ← w`, check
consistency, recurse, and propagate a non-`None` result; otherwise
move on to the next candidate.  The proof argument records that `var`
is an unassigned variable, which bounds the recursion. -/
def tryCands (c : Crossword V) (doms : Domains V) (a : Assignment V) (var : V)
    (ws : List Word) (h : var ∈ c.vars ∧ lookupA a var = none) :
    Option (Assignment V) :=
  match ws with
  | [] => none
  | w :: rest =>
    let new_assignment := insertA a var w
    if consistent c new_assignment then
      match backtrack c doms new_assignment with
      | some result => some result
      | none => tryCands c doms a var rest h
    else tryCands c doms a var rest h
termination_by (unassignedCount c a, ws.length)
decreasing_by
· simp_wf
  -- inserting the fresh key `var` strictly decreases the number of
  -- unassigned variables
  have hlk_ne : ∀ (b : Assignment V) (v : V), v ≠ var →
      lookupA (insertA b var w) v = lookupA b v := by
    intro b
    induction b with
    | nil =>
      intro v hv
      simp only [insertA, List.nil_append, lookupA]
      rw [if_neg (fun he => hv he.symm)]
    | cons q qs ih =>
      intro v hv
      simp only [insertA, List.cons_append, lookupA] at ih ⊢
      by_cases hq : q.1 = v
      · rw [if_pos hq, if_pos hq]
      · rw [if_neg hq, if_neg hq]
        exact ih v hv
  have hlk_var : ∀ (b : Assignment V), lookupA b var = none →
      lookupA (insertA b var w) var = some w := by
    intro b
    induction b with
    | nil =>
      intro _
      simp [insertA, lookupA]
    | cons q qs ih =>
      intro hb
      simp only [lookupA] at hb
      by_cases hq : q.1 = var
      · rw [if_pos hq] at hb; exact Option.noConfusion hb
      · rw [if_neg hq] at hb
        simp only [insertA, List.cons_append, lookupA]
        rw [if_neg hq]
        exact ih hb
  have hlt : unassignedCount c (insertA a var w) < unassignedCount c a := by
    have key : ∀ (L : List V), var ∈ L →
        L.countP (fun v => (lookupA (insertA a var w) v).isNone) <
        L.countP (fun v => (lookupA a v).isNone) := by
      intro L hvar
      induction L with
      | nil => simp at hvar
      | cons u us ih =>
        rw [List.countP_cons, List.countP_cons]
        have hmono : us.countP (fun v => (lookupA (insertA a var w) v).isNone) ≤
            us.countP (fun v => (lookupA a v).isNone) := by
          apply List.countP_mono_left
          intro v _ hv
          by_cases hveq : v = var
          · subst hveq
            rw [hlk_var a h.2] at hv
            simp at hv
          · rw [hlk_ne a v hveq] at hv
            exact hv
        by_cases hu : u = var
        · subst hu
          show us.countP (fun v => (lookupA (insertA a u w) v).isNone) +
              (if (lookupA (insertA a u w) u).isNone then 1 else 0) <
              us.countP (fun v => (lookupA a v).isNone) +
              (if (lookupA a u).isNone then 1 else 0)
          have h1 : (lookupA (insertA a u w) u).isNone = false := by
            rw [hlk_var a h.2]; rfl
          have h2 : (lookupA a u).isNone = true := by rw [h.2]; rfl
          rw [h1, h2]
          have e1 : (if false = true then (1 : Nat) else 0) = 0 := rfl
          have e2 : (if true = true then (1 : Nat) else 0) = 1 := rfl
          rw [e1, e2]
          omega
        · show us.countP (fun v => (lookupA (insertA a var w) v).isNone) +
              (if (lookupA (insertA a var w) u).isNone then 1 else 0) <
              us.countP (fun v => (lookupA a v).isNone) +
              (if (lookupA a u).isNone then 1 else 0)
          have h1 : (lookupA (insertA a var w) u).isNone = (lookupA a u).isNone := by
            rw [hlk_ne a u hu]
          rw [h1]
          rcases List.mem_cons.mp hvar with he | he
          · exact absurd he.symm hu
          · have := ih he
            omega
    exact key c.vars h.1
  rcases Nat.lt_or_eq_of_le (Nat.succ_le_of_lt hlt) with h1 | h1
  · exact Prod.Lex.left _ _ h1
  · have h1x : unassignedCount c (insertA a var w) + 1 = unassignedCount c a := h1
    rw [h1x]
    exact Prod.Lex.right _ (Nat.succ_pos _)
· simp_wf
  apply Prod.Lex.right
  exact Nat.lt_succ_self _
· simp_wf
  apply Prod.Lex.right
  exact Nat.lt_succ_self _

end

/-- `solve()`: enforce node consistency, run AC-3 — whose Boolean
result the source discards — and run the backtracking search on the
resulting domains from the empty assignment. -/
def solve (c : Crossword V) : Option (Assignment V) :=
  backtrack c (ac3 c (enforce_node_consistency c (initial_domains c))).1 []

/-- `solve()` instrumented with a flag recording whether the
backtracking search is invoked.  The source calls
`self.backtrack(dict())` unconditionally — `self.ac3()` is run only
for its side effect on the domains — so the flag is `true` on every
input. -/
def solveT (c : Crossword V) : Option (Assignment V) × Bool :=
  (backtrack c (ac3 c (enforce_node_consistency c (initial_domains c))).1 [], true)

/-- Modelled from the spec (claim C6's reading of
`orderDomainValues`): the elimination count restricted to *unassigned*
neighbors — neighbors with an entry in the assignment contribute
nothing.  Used to compare the source's ordering with the claimed
one. -/
def specConflicts (c : Crossword V) (doms : Domains V) (a : Assignment V)
    (var : V) (w : Word) : Nat :=
  ((c.neighbors var).map (fun u =>
    if lookupA a u = none then
      match c.overlaps var u with
      | none => 0
      | some ov => (doms u).countP (fun wu => !(charAt w ov.1 == charAt wu ov.2))
    else 0)).sum

/-- A total satisfying assignment in the sense of the specification's
completeness property: every variable receives a word of the list, of
the variable's length, words are pairwise distinct, and every overlap
constraint holds. -/
def IsSolution (c : Crossword V) (f : V → Word) : Prop :=
  (∀ v, f v ∈ c.words) ∧
  (∀ v, (f v).length = c.len v) ∧
  Function.Injective f ∧
  (∀ x y ov, c.overlaps x y = some ov → charAt (f x) ov.1 = charAt (f y) ov.2)

/-- One filtering step: a node-consistency pass or one `revise` call. -/
inductive FilterStep (V : Type) where
  | node : FilterStep V
  | arc : V → V → FilterStep V

/-- Apply one filtering step to the domains. -/
def applyStep (c : Crossword V) (doms : Domains V) : FilterStep V → Domains V
  | FilterStep.node => enforce_node_consistency c doms
  | FilterStep.arc x y => (revise c doms x y).1

/-- Apply a sequence of filtering steps to the domains. -/
def applyOps (c : Crossword V) : List (FilterStep V) → Domains V → Domains V
  | [], doms => doms
  | s :: rest, doms => applyOps c rest (applyStep c doms s)

/-- Arc consistency of `x` with respect to `y`: every word remaining
in the domain of `x` has at least one word in the domain of `y` that
matches it at the overlap indices. -/
def ArcConsistent (c : Crossword V) (doms : Domains V) (x y : V) : Prop :=
  ∀ ov, c.overlaps x y = some ov →
    ∀ w ∈ doms x, ∃ w2 ∈ doms y, charAt w ov.1 = charAt w2 ov.2

/-- The spec's 1×1 example: a single ACROSS variable of length 1 with
word list of two one-letter words and no intersections. -/
def c1x : Crossword (Fin 1) where
  vars := [0]
  vars_nodup := by decide
  vars_complete := by decide
  len := fun _ => 1
  words := [['a'], ['b']]
  words_nodup := by decide
  overlaps := fun _ _ => none
  neighbors := fun _ => []
  mem_neighbors := by decide
  overlaps_symm := by decide

/-- The spec's two-slot example: two length-3 variables intersecting
at index 1 of each, word list cat/car (both carry the letter a at the
overlap). -/
def c4x : Crossword (Fin 2) where
  vars := [0, 1]
  vars_nodup := by decide
  vars_complete := by decide
  len := fun _ => 3
  words := [['c', 'a', 't'], ['c', 'a', 'r']]
  words_nodup := by decide
  overlaps := fun x y => if x = y then none else some (1, 1)
  neighbors := fun x => if x = 0 then [1] else [0]
  mem_neighbors := by decide
  overlaps_symm := by decide

/-- Two length-2 variables overlapping at index 0 of the first and
index 1 of the second, with word list ab/cd: no word's first letter
matches any word's second letter, so AC-3 empties a domain and
reports failure. -/
def c2x : Crossword (Fin 2) where
  vars := [0, 1]
  vars_nodup := by decide
  vars_complete := by decide
  len := fun _ => 2
  words := [['a', 'b'], ['c', 'd']]
  words_nodup := by decide
  overlaps := fun x y => if x = y then none else if x = 0 then some (0, 1) else some (1, 0)
  neighbors := fun x => if x = 0 then [1] else [0]
  mem_neighbors := by decide
  overlaps_symm := by decide

/-- A single variable of length 2 with no neighbor and a word list
whose only word has length 1: node consistency empties the domain,
and the AC-3 queue is empty. -/
def c10x : Crossword (Fin 1) where
  vars := [0]
  vars_nodup := by decide
  vars_complete := by decide
  len := fun _ => 2
  words := [['a']]
  words_nodup := by decide
  overlaps := fun _ _ => none
  neighbors := fun _ => []
  mem_neighbors := by decide
  overlaps_symm := by decide

/-- Three variables where only 1 and 2 are neighbors; variable 0 is
isolated.  Used to exercise `select_unassigned_variable`. -/
def c5x : Crossword (Fin 3) where
  vars := [0, 1, 2]
  vars_nodup := by decide
  vars_complete := by decide
  len := fun _ => 1
  words := [['a']]
  words_nodup := by decide
  overlaps := fun x y =>
    if (x = 1 ∧ y = 2) ∨ (x = 2 ∧ y = 1) then some (0, 0) else none
  neighbors := fun v => if v = 1 then [2] else if v = 2 then [1] else []
  mem_neighbors := by decide
  overlaps_symm := by decide

/-- Domains for the `select_unassigned_variable` scenario: variables 0
and 1 tie at two remaining words, variable 2 has three. -/
def d5x : Domains (Fin 3) :=
  fun v => if v = 0 then [['a'], ['b']]
    else if v = 1 then [['c'], ['d']]
    else [['e'], ['f'], ['g']]

/-- Three variables: 0 neighbors both 1 (overlap at indices 0,0) and
2 (overlap at indices 1,0); 1 and 2 do not intersect.  Used to
exercise `order_domain_values` with an assigned neighbor. -/
def c6x : Crossword (Fin 3) where
  vars := [0, 1, 2]
  vars_nodup := by decide
  vars_complete := by decide
  len := fun v => if v = 2 then 1 else 2
  words := [['a', 'b']]
  words_nodup := by decide
  overlaps := fun x y =>
    if (x = 0 ∧ y = 1) ∨ (x = 1 ∧ y = 0) then some (0, 0)
    else if x = 0 ∧ y = 2 then some (1, 0)
    else if x = 2 ∧ y = 0 then some (0, 1)
    else none
  neighbors := fun v => if v = 0 then [1, 2] else [0]
  mem_neighbors := by decide
  overlaps_symm := by decide

/-- Domains for the `order_domain_values` scenario. -/
def d6x : Domains (Fin 3) :=
  fun v => if v = 0 then [['a', 'b'], ['c', 'd']]
    else if v = 1 then [['a', 'x'], ['a', 'y'], ['a', 'z']]
    else [['d']]

/-- Assignment for the `order_domain_values` scenario: the neighbor 1
of variable 0 is already assigned. -/
def a6x : Assignment (Fin 3) := [(1, ['a', 'x'])]

/-! ### List and lookup utilities -/

theorem diff_cons_of_not_mem (a : Word) (l r : List Word)
    (h : a ∉ r) : (a :: l).diff r = a :: l.diff r := by
  induction r generalizing l with
  | nil => rfl
  | cons b r ih =>
    have hab : a ≠ b := fun he => h (he ▸ List.mem_cons_self b r)
    rw [List.diff_cons, List.diff_cons]
    rw [List.erase_cons_tail (by simpa using hab)]
    exact ih (l.erase b) (fun hm => h (List.mem_cons_of_mem b hm))

/-- Removing from a list exactly those of its members that satisfy a
predicate (with multiplicity, as the Python set-removal loop does on a
domain) leaves the members that do not satisfy it. -/
theorem diff_filter (l : List Word) (p : Word → Bool) :
    l.diff (l.filter p) = l.filter (fun x => !(p x)) := by
  induction l with
  | nil => rfl
  | cons a l ih =>
    by_cases hp : p a
    · rw [List.filter_cons_of_pos hp, List.diff_cons, List.erase_cons_head,
        List.filter_cons_of_neg (by simp [hp]), ih]
    · have hpa : p a = false := Bool.eq_false_iff.mpr hp
      rw [List.filter_cons_of_neg (by simp [hpa]),
        List.filter_cons_of_pos (by simp [hpa])]
      rw [diff_cons_of_not_mem a l _ (fun hm => by
        have := List.of_mem_filter hm
        rw [hpa] at this
        exact Bool.noConfusion this)]
      rw [ih]

theorem lookupA_insert_ne (a : Assignment V) (var v : V) (w : Word)
    (h : v ≠ var) : lookupA (insertA a var w) v = lookupA a v := by
  induction a with
  | nil =>
    simp only [insertA, List.nil_append, lookupA]
    rw [if_neg (fun he => h he.symm)]
  | cons q qs ih =>
    simp only [insertA, List.cons_append, lookupA] at ih ⊢
    by_cases hq : q.1 = v
    · rw [if_pos hq, if_pos hq]
    · rw [if_neg hq, if_neg hq]
      exact ih

theorem lookupA_insert_self (a : Assignment V) (var : V) (w : Word)
    (h : lookupA a var = none) : lookupA (insertA a var w) var = some w := by
  induction a with
  | nil => simp [insertA, lookupA]
  | cons q qs ih =>
    simp only [lookupA] at h
    by_cases hq : q.1 = var
    · rw [if_pos hq] at h; exact Option.noConfusion h
    · rw [if_neg hq] at h
      simp only [insertA, List.cons_append, lookupA]
      rw [if_neg hq]
      exact ih h

theorem lookupA_mem {a : Assignment V} {v : V} {w : Word}
    (h : lookupA a v = some w) : (v, w) ∈ a := by
  induction a with
  | nil => exact Option.noConfusion h
  | cons q qs ih =>
    obtain ⟨qv, qw⟩ := q
    simp only [lookupA] at h
    by_cases hq : qv = v
    · rw [if_pos hq] at h
      injection h with h
      subst hq
      subst h
      exact List.mem_cons_self _ _
    · rw [if_neg hq] at h
      exact List.mem_cons_of_mem _ (ih h)

theorem lookupA_isSome_of_mem {a : Assignment V} {v : V} {w : Word}
    (h : (v, w) ∈ a) : (lookupA a v).isSome := by
  induction a with
  | nil => simp at h
  | cons q qs ih =>
    simp only [lookupA]
    by_cases hq : q.1 = v
    · rw [if_pos hq]; rfl
    · rw [if_neg hq]
      rcases List.mem_cons.mp h with he | hm
      · exact absurd (by rw [← he]) hq
      · exact ih hm

/-! ### Characterizations of revise and enforce_node_consistency -/

theorem revise_apply_ne (c : Crossword V) (doms : Domains V) (x y v : V)
    (h : v ≠ x) : (revise c doms x y).1 v = doms v := by
  cases hov : c.overlaps x y with
  | none => simp only [revise, hov]
  | some ov =>
    simp only [revise, hov, updateD]
    rw [if_neg h]

theorem revise_apply_of_none (c : Crossword V) (doms : Domains V) (x y : V)
    (hov : c.overlaps x y = none) : revise c doms x y = (doms, false) := by
  simp only [revise, hov]

/-- After `revise(x, y)` the domain of `x` is exactly its words that
have a matching word in the domain of `y`. -/
theorem revise_apply_x (c : Crossword V) (doms : Domains V) (x y : V)
    (ov : Nat × Nat) (hov : c.overlaps x y = some ov) :
    (revise c doms x y).1 x =
      (doms x).filter
        (fun xw => (doms y).any (fun yw => charAt xw ov.1 == charAt yw ov.2)) := by
  have hu : ∀ (d : List Word), updateD doms x d x = d := fun d => if_pos rfl
  simp only [revise, hov]
  rw [hu, diff_filter]
  apply List.filter_congr
  intro w _
  rw [Bool.not_not]

/-- `revise` reports a revision iff some word was removed. -/
theorem revise_snd_eq (c : Crossword V) (doms : Domains V) (x y : V)
    (ov : Nat × Nat) (hov : c.overlaps x y = some ov) :
    (revise c doms x y).2 =
      !((doms x).filter
        (fun xw => !((doms y).any (fun yw => charAt xw ov.1 == charAt yw ov.2)))).isEmpty := by
  simp only [revise, hov]

/-- If `revise(x, y)` makes no revision, every word of `domains[x]`
already has a supporting word in `domains[y]`. -/
theorem revise_false_support (c : Crossword V) (doms : Domains V) (x y : V)
    (ov : Nat × Nat) (hov : c.overlaps x y = some ov)
    (h : (revise c doms x y).2 = false) :
    ∀ w ∈ doms x, (doms y).any (fun yw => charAt w ov.1 == charAt yw ov.2) = true := by
  intro w hw
  rw [revise_snd_eq c doms x y ov hov, Bool.not_eq_false'] at h
  rw [List.isEmpty_iff] at h
  by_contra hsup
  have hmem : w ∈ (doms x).filter
      (fun xw => !((doms y).any (fun yw => charAt xw ov.1 == charAt yw ov.2))) := by
    rw [List.mem_filter]
    exact ⟨hw, by rw [Bool.not_eq_true', Bool.eq_false_iff]; exact hsup⟩
  rw [h] at hmem
  simp at hmem

theorem revise_subset (c : Crossword V) (doms : Domains V) (x y v : V) :
    (revise c doms x y).1 v ⊆ doms v := by
  by_cases hv : v = x
  · subst hv
    cases hov : c.overlaps v y with
    | none =>
      rw [revise_apply_of_none c doms v y hov]
      exact List.Subset.refl _
    | some ov =>
      rw [revise_apply_x c doms v y ov hov]
      exact List.filter_subset' _
  · rw [revise_apply_ne c doms x y v hv]
    exact List.Subset.refl _

/-- Pointwise characterization of a fold that filters each listed
variable's domain in turn. -/
theorem foldl_filter_apply (p : V → Word → Bool) :
    ∀ (L : List V) (ds : Domains V) (v : V),
      (L.foldl (fun ds var => updateD ds var ((ds var).filter (p var))) ds) v =
      if v ∈ L then (ds v).filter (p v) else ds v := by
  intro L
  induction L with
  | nil => intro ds v; simp
  | cons u us ih =>
    intro ds v
    rw [List.foldl_cons, ih]
    simp only [updateD]
    by_cases hv : v = u
    · subst hv
      rw [if_pos rfl, if_pos (List.mem_cons_self v us)]
      by_cases hm : v ∈ us
      · rw [if_pos hm, List.filter_filter]
        apply List.filter_congr
        intro w _
        rw [Bool.and_self]
      · rw [if_neg hm]
    · rw [if_neg hv]
      by_cases hm : v ∈ us
      · rw [if_pos hm, if_pos (List.mem_cons_of_mem u hm)]
      · rw [if_neg hm, if_neg (by
          intro hc
          rcases List.mem_cons.mp hc with he | he
          · exact hv he
          · exact hm he)]

/-- Pointwise description of `enforce_node_consistency`: each listed
variable keeps exactly its words of the right length. -/
theorem enforce_apply (c : Crossword V) (doms : Domains V) (v : V) :
    enforce_node_consistency c doms v =
      if v ∈ c.vars
        then (doms v).filter (fun w => decide (w.length = c.len v))
        else doms v := by
  have hdf : ∀ (l : List Word) (n : Nat),
      l.diff (l.filter (fun w => decide (w.length ≠ n))) =
      l.filter (fun w => decide (w.length = n)) := by
    intro l n
    rw [diff_filter]
    apply List.filter_congr
    intro w _
    simp
  have hfeq : (fun (ds : Domains V) var =>
        let remove_words := (ds var).filter (fun w => w.length ≠ c.len var)
        updateD ds var ((ds var).diff remove_words)) =
      (fun (ds : Domains V) var =>
        updateD ds var ((ds var).filter (fun w => decide (w.length = c.len var)))) := by
    funext ds var
    show updateD ds var
        ((ds var).diff ((ds var).filter (fun w => decide (w.length ≠ c.len var)))) = _
    exact congrArg (updateD ds var) (hdf _ _)
  unfold enforce_node_consistency
  rw [hfeq]
  exact foldl_filter_apply (fun var w => decide (w.length = c.len var)) c.vars doms v

theorem enforce_subset (c : Crossword V) (doms : Domains V) (v : V) :
    enforce_node_consistency c doms v ⊆ doms v := by
  rw [enforce_apply]
  by_cases hm : v ∈ c.vars
  · rw [if_pos hm]; exact List.filter_subset' _
  · rw [if_neg hm]
    exact List.Subset.refl _

/-! ### Unfolding equations for the recursive functions -/

theorem ac3Go_nil (c : Crossword V) (doms : Domains V) :
    ac3Go c [] doms = (doms, true) := by
  rw [ac3Go.eq_def]

theorem ac3Go_cons (c : Crossword V) (x y : V) (rest : List (V × V))
    (doms : Domains V) :
    ac3Go c ((x, y) :: rest) doms =
      (if (revise c doms x y).2 then
        (if ((revise c doms x y).1 x).length = 0 then ((revise c doms x y).1, false)
         else ac3Go c
           (rest ++ ((c.neighbors x).filter (fun z => z ≠ y)).map (fun z => (z, x)))
           (revise c doms x y).1)
       else ac3Go c rest doms) := by
  rw [ac3Go.eq_def]
  rfl

theorem tryCands_nil (c : Crossword V) (doms : Domains V) (a : Assignment V)
    (var : V) (h : var ∈ c.vars ∧ lookupA a var = none) :
    tryCands c doms a var [] h = none := by
  rw [tryCands.eq_def]

theorem tryCands_cons (c : Crossword V) (doms : Domains V) (a : Assignment V)
    (var : V) (w : Word) (rest : List Word)
    (h : var ∈ c.vars ∧ lookupA a var = none) :
    tryCands c doms a var (w :: rest) h =
      (if consistent c (insertA a var w) then
        (match backtrack c doms (insertA a var w) with
         | some result => some result
         | none => tryCands c doms a var rest h)
       else tryCands c doms a var rest h) := by
  rw [tryCands.eq_def]

theorem backtrack_of_complete (c : Crossword V) (doms : Domains V)
    (a : Assignment V) (h : assignment_complete c a = true) :
    backtrack c doms a = some a := by
  rw [backtrack.eq_def, if_pos h]

theorem backtrack_of_incomplete (c : Crossword V) (doms : Domains V)
    (a : Assignment V) (var : V)
    (h : assignment_complete c a = false)
    (hsel : select_unassigned_variable c doms a = some var)
    (hvp : var ∈ c.vars ∧ lookupA a var = none) :
    backtrack c doms a =
      tryCands c doms a var (order_domain_values c doms var a) hvp := by
  rw [backtrack.eq_def, if_neg (by rw [h]; exact Bool.false_ne_true)]
  split
  · rename_i heq
    rw [heq] at hsel
    exact Option.noConfusion hsel
  · rename_i var2 heq
    rw [heq] at hsel
    injection hsel with hsel
    subst hsel
    rfl

/-! ### Selection helpers -/

theorem minByCount_mem (l : List (V × Nat)) :
    ∀ (p : V × Nat), minByCount l = some p → p ∈ l := by
  induction l with
  | nil => intro p h; simp [minByCount] at h
  | cons q qs ih =>
    intro p h
    cases hq : minByCount qs with
    | none =>
      simp only [minByCount, hq] at h
      injection h with h
      exact h ▸ List.mem_cons_self q qs
    | some m =>
      simp only [minByCount, hq] at h
      by_cases hle : q.2 ≤ m.2
      · rw [if_pos hle] at h
        injection h with h
        exact h ▸ List.mem_cons_self q qs
      · rw [if_neg hle] at h
        injection h with h
        exact h ▸ List.mem_cons_of_mem q (ih m hq)

theorem minByCount_eq_none {l : List (V × Nat)} (h : minByCount l = none) :
    l = [] := by
  cases l with
  | nil => rfl
  | cons q qs =>
    exfalso
    cases hq : minByCount qs with
    | none => simp [minByCount, hq] at h
    | some m =>
      simp only [minByCount, hq] at h
      by_cases hle : q.2 ≤ m.2
      · rw [if_pos hle] at h; exact Option.noConfusion h
      · rw [if_neg hle] at h; exact Option.noConfusion h

theorem select_spec {c : Crossword V} {doms : Domains V} {a : Assignment V}
    {var : V} (hsel : select_unassigned_variable c doms a = some var) :
    var ∈ c.vars ∧ lookupA a var = none := by
  unfold select_unassigned_variable at hsel
  cases hm : minByCount (c.vars.filterMap
      (fun v => if lookupA a v = none then some (v, (doms v).length) else none)) with
  | none =>
    rw [hm] at hsel
    exact Option.noConfusion hsel
  | some p =>
    rw [hm] at hsel
    have hsel2 : p.1 = var := by
      have hs : some p.1 = some var := hsel
      injection hs
    have hp := minByCount_mem _ _ hm
    rw [List.mem_filterMap] at hp
    obtain ⟨v, hv, hveq⟩ := hp
    by_cases hl : lookupA a v = none
    · rw [if_pos hl] at hveq
      injection hveq with hveq
      subst hveq
      have hv2 : v = var := hsel2
      subst hv2
      exact ⟨hv, hl⟩
    · rw [if_neg hl] at hveq
      exact absurd hveq (by simp)

/-- An incomplete assignment always yields a selected variable. -/
theorem select_isSome_of_incomplete (c : Crossword V) (doms : Domains V)
    (a : Assignment V) (h : assignment_complete c a = false) :
    ∃ var, select_unassigned_variable c doms a = some var := by
  unfold select_unassigned_variable
  cases hm : minByCount (c.vars.filterMap
      (fun v => if lookupA a v = none then some (v, (doms v).length) else none)) with
  | some p => exact ⟨p.1, rfl⟩
  | none =>
    exfalso
    have hnil := minByCount_eq_none hm
    -- an incomplete assignment has an unassigned variable, which the
    -- filterMap keeps
    unfold assignment_complete at h
    rw [List.all_eq_false] at h
    obtain ⟨v, hv, hnone⟩ := h
    have hvnone : lookupA a v = none := by
      cases hl : lookupA a v with
      | none => rfl
      | some w => rw [hl] at hnone; simp at hnone
    have : (v, (doms v).length) ∈ c.vars.filterMap
        (fun v => if lookupA a v = none then some (v, (doms v).length) else none) := by
      rw [List.mem_filterMap]
      exact ⟨v, hv, by rw [if_pos hvnone]⟩
    rw [hnil] at this
    simp at this

/-! ### order_domain_values helpers -/

theorem odv_perm (c : Crossword V) (doms : Domains V) (var : V)
    (a : Assignment V) :
    (order_domain_values c doms var a).Perm (doms var) := by
  unfold order_domain_values
  have h1 : (List.insertionSort leCount
      ((doms var).map (fun w => (w, conflictCount c doms var w)))).Perm
      ((doms var).map (fun w => (w, conflictCount c doms var w))) :=
    List.perm_insertionSort _ _
  have h2 := h1.map Prod.fst
  rw [List.map_map] at h2
  have h3 : ((doms var).map (Prod.fst ∘ fun w => (w, conflictCount c doms var w)))
      = doms var := by
    rw [show (Prod.fst ∘ fun w => (w, conflictCount c doms var w)) = id from rfl,
      List.map_id]
  rw [h3] at h2
  exact h2

theorem mem_odv {c : Crossword V} {doms : Domains V} {var : V}
    {a : Assignment V} {w : Word} (h : w ∈ doms var) :
    w ∈ order_domain_values c doms var a :=
  (odv_perm c doms var a).mem_iff.mpr h

/-! ### Reading off the components of consistent and assignment_complete -/

theorem backtrack_of_select_none (c : Crossword V) (doms : Domains V)
    (a : Assignment V) (h : assignment_complete c a = false)
    (hsel : select_unassigned_variable c doms a = none) :
    backtrack c doms a = none := by
  rw [backtrack.eq_def, if_neg (by rw [h]; exact Bool.false_ne_true)]
  split
  · rfl
  · rename_i var heq
    rw [heq] at hsel
    exact Option.noConfusion hsel

theorem consistent_nil (c : Crossword V) : consistent c [] = true := by
  unfold consistent
  simp

theorem complete_lookup {c : Crossword V} {a : Assignment V}
    (h : assignment_complete c a = true) : ∀ v, ∃ w, lookupA a v = some w := by
  intro v
  unfold assignment_complete at h
  rw [List.all_eq_true] at h
  have := h v (c.vars_complete v)
  rw [Option.isSome_iff_exists] at this
  exact this

theorem consistent_nodup {c : Crossword V} {a : Assignment V}
    (h : consistent c a = true) : (a.map Prod.snd).Nodup := by
  unfold consistent at h
  rw [Bool.and_eq_true] at h
  exact of_decide_eq_true h.1

theorem consistent_entry {c : Crossword V} {a : Assignment V} {v : V} {wv : Word}
    (h : consistent c a = true) (hv : lookupA a v = some wv) :
    ((wv.length == c.len v) &&
      ((c.neighbors v).all (fun u =>
        match c.overlaps v u with
        | none => true
        | some ov =>
          match lookupA a u with
          | none => true
          | some wu => charAt wv ov.1 == charAt wu ov.2))) = true := by
  unfold consistent at h
  rw [Bool.and_eq_true] at h
  have hall := h.2
  rw [List.all_eq_true] at hall
  exact hall (v, wv) (lookupA_mem hv)

theorem consistent_length {c : Crossword V} {a : Assignment V}
    (h : consistent c a = true) :
    ∀ v w, lookupA a v = some w → w.length = c.len v := by
  intro v w hv
  have := consistent_entry h hv
  rw [Bool.and_eq_true] at this
  exact eq_of_beq this.1

theorem consistent_overlap {c : Crossword V} {a : Assignment V}
    (h : consistent c a = true) :
    ∀ v u ov wv wu, u ∈ c.neighbors v → c.overlaps v u = some ov →
      lookupA a v = some wv → lookupA a u = some wu →
      charAt wv ov.1 = charAt wu ov.2 := by
  intro v u ov wv wu hu hov hwv hwu
  have hent := consistent_entry h hwv
  rw [Bool.and_eq_true] at hent
  have hall := hent.2
  rw [List.all_eq_true] at hall
  have := hall u hu
  simp only [hov, hwu] at this
  exact eq_of_beq this

/-! ### Soundness of the backtracking search -/

/-- Anything `backtrack` returns is complete, and consistent unless it
is the unchecked starting assignment itself; anything the candidate
loop returns is complete and consistent. -/
theorem backtrack_sound (c : Crossword V) (doms : Domains V) :
    (∀ a, ∀ r, backtrack c doms a = some r →
        assignment_complete c r = true ∧ (consistent c r = true ∨ r = a)) ∧
    (∀ a var ws (h : var ∈ c.vars ∧ lookupA a var = none), ∀ r,
        tryCands c doms a var ws h = some r →
        assignment_complete c r = true ∧ consistent c r = true) := by
  refine backtrack.mutual_induct c doms _ _ ?_ ?_ ?_ ?_ ?_ ?_ ?_
  · -- complete assignment: returned as is
    intro a hcomp r hr
    rw [backtrack_of_complete c doms a hcomp] at hr
    injection hr with hr
    subst hr
    exact ⟨hcomp, Or.inr rfl⟩
  · -- no selectable variable (unreachable): backtrack returns none
    intro a hcomp hsel r hr
    rw [backtrack_of_select_none c doms a (Bool.eq_false_iff.mpr hcomp) hsel] at hr
    exact Option.noConfusion hr
  · -- delegate to the candidate loop
    intro a hcomp var hsel ih r hr
    rw [backtrack_of_incomplete c doms a var (Bool.eq_false_iff.mpr hcomp) hsel
      (select_spec hsel)] at hr
    have := ih r hr
    exact ⟨this.1, Or.inl this.2⟩
  · -- empty candidate list
    intro a var h r hr
    rw [tryCands_nil] at hr
    exact Option.noConfusion hr
  · -- consistent extension, recursion succeeds
    intro a var h w rest na hcons result hbt ih1 r hr
    rw [tryCands_cons, if_pos hcons, hbt] at hr
    have hr2 : some result = some r := hr
    injection hr2 with hr2
    have hres := ih1 result hbt
    rcases hres.2 with hc | he
    · exact hr2 ▸ ⟨hres.1, hc⟩
    · exact hr2 ▸ ⟨hres.1, he ▸ hcons⟩
  · -- consistent extension, recursion fails: move to the next candidate
    intro a var h w rest na hcons hbt ih1 ih2 r hr
    rw [tryCands_cons, if_pos hcons, hbt] at hr
    have hr2 : tryCands c doms a var rest h = some r := hr
    exact ih2 r hr2
  · -- inconsistent extension: move to the next candidate
    intro a var h w rest na hcons ih2 r hr
    rw [tryCands_cons, if_neg hcons] at hr
    exact ih2 r hr

/-- C1: if solve() returns an Assignment, every Variable has an entry,
the assigned words are pairwise distinct, neighboring assigned words
agree at their overlap indices, and each word has its variable's
length. -/
theorem solve_valid (c : Crossword V) (a : Assignment V) (h : solve c = some a) :
    (∀ v, ∃ w, lookupA a v = some w) ∧
    (a.map Prod.snd).Nodup ∧
    (∀ v u ov wv wu, u ∈ c.neighbors v → c.overlaps v u = some ov →
        lookupA a v = some wv → lookupA a u = some wu →
        charAt wv ov.1 = charAt wu ov.2) ∧
    (∀ v w, lookupA a v = some w → w.length = c.len v) := by
  unfold solve at h
  have hs := (backtrack_sound c _).1 [] a h
  have hcons : consistent c a = true := by
    rcases hs.2 with hc | he
    · exact hc
    · rw [he]; exact consistent_nil c
  exact ⟨complete_lookup hs.1, consistent_nodup hcons,
    fun v u ov wv wu hu hov hwv hwu =>
      consistent_overlap hcons v u ov wv wu hu hov hwv hwu,
    consistent_length hcons⟩

/-- Full evaluation of the solver on the 1×1 example. -/
theorem c1x_solve_eval : solve c1x = some [((0 : Fin 1), ['a'])] := by
  have e0 : ac3 c1x (enforce_node_consistency c1x (initial_domains c1x)) =
      (enforce_node_consistency c1x (initial_domains c1x), true) := by
    rw [ac3, ac3Go.eq_def]
    rfl
  have e3 : backtrack c1x (enforce_node_consistency c1x (initial_domains c1x))
      (insertA [] (0 : Fin 1) ['a']) = some (insertA [] (0 : Fin 1) ['a']) :=
    backtrack_of_complete _ _ _ (by decide)
  have e4 : tryCands c1x (enforce_node_consistency c1x (initial_domains c1x))
      [] 0 [['a'], ['b']] ⟨by decide, rfl⟩ = some [((0 : Fin 1), ['a'])] := by
    rw [tryCands_cons, if_pos (by decide), e3]
    rfl
  have e1 : backtrack c1x (enforce_node_consistency c1x (initial_domains c1x)) [] =
      tryCands c1x (enforce_node_consistency c1x (initial_domains c1x)) [] 0
        (order_domain_values c1x
          (enforce_node_consistency c1x (initial_domains c1x)) 0 [])
        ⟨by decide, rfl⟩ :=
    backtrack_of_incomplete _ _ _ _ (by decide) (by decide) _
  have e2 : order_domain_values c1x
      (enforce_node_consistency c1x (initial_domains c1x)) 0 [] = [['a'], ['b']] := by
    decide
  unfold solve
  rw [e0]
  show backtrack c1x (enforce_node_consistency c1x (initial_domains c1x)) [] =
    some [((0 : Fin 1), ['a'])]
  rw [e1, e2, e4]

/-- Witness for C1 at the 1×1 example, whose solve run returns the
assignment mapping the single variable to the word a. -/
theorem solve_valid_witness :
    (∀ v : Fin 1, ∃ w, lookupA [((0 : Fin 1), ['a'])] v = some w) ∧
    (([((0 : Fin 1), ['a'])].map Prod.snd).Nodup) ∧
    (∀ v u ov wv wu, u ∈ c1x.neighbors v → c1x.overlaps v u = some ov →
        lookupA [((0 : Fin 1), ['a'])] v = some wv →
        lookupA [((0 : Fin 1), ['a'])] u = some wu →
        charAt wv ov.1 = charAt wu ov.2) ∧
    (∀ v w, lookupA [((0 : Fin 1), ['a'])] v = some w → w.length = c1x.len v) :=
  solve_valid c1x [((0 : Fin 1), ['a'])] c1x_solve_eval

/-- C7: domains only shrink, never grow — after
`enforce_node_consistency` or any `revise(x, y)` every domain is a
subset of the domain before the call, and likewise across any sequence
of such filtering steps from any starting domains. -/
theorem domains_shrink (c : Crossword V) :
    (∀ doms v, enforce_node_consistency c doms v ⊆ doms v) ∧
    (∀ doms x y v, (revise c doms x y).1 v ⊆ doms v) ∧
    (∀ ops doms v, applyOps c ops doms v ⊆ doms v) := by
  refine ⟨enforce_subset c, fun doms x y v => revise_subset c doms x y v, ?_⟩
  intro ops
  induction ops with
  | nil => intro doms v; exact List.Subset.refl _
  | cons s rest ih =>
    intro doms v
    show applyOps c rest (applyStep c doms s) v ⊆ doms v
    have h1 := ih (applyStep c doms s) v
    have h2 : applyStep c doms s v ⊆ doms v := by
      cases s with
      | node => exact enforce_subset c doms v
      | arc x y => exact revise_subset c doms x y v
    exact fun w hw => h2 (h1 hw)

/-- Words of a filtered list all pass a second filter by the same
predicate, so refiltering is the identity. -/
theorem filter_idem (l : List Word) (p : Word → Bool) :
    (l.filter p).filter p = l.filter p := by
  rw [List.filter_filter]
  apply List.filter_congr
  intro w _
  rw [Bool.and_self]

/-- Filtering a filtered list by the negated predicate leaves
nothing. -/
theorem filter_neg_filter (l : List Word) (p : Word → Bool) :
    (l.filter p).filter (fun w => !(p w)) = [] := by
  rw [List.filter_filter]
  rw [show (fun w => !p w && p w) = (fun w => (false : Bool)) from by
    funext w
    cases hp : p w <;> simp]
  exact List.filter_false _

/-- C8: filtering is idempotent — a second
`enforce_node_consistency` changes no domain, and for a neighboring
pair a second `revise(x, y)` removes nothing and returns `False`. -/
theorem filtering_idempotent (c : Crossword V) (doms : Domains V) (x y : V)
    (h : y ∈ c.neighbors x) :
    (∀ v, enforce_node_consistency c (enforce_node_consistency c doms) v =
        enforce_node_consistency c doms v) ∧
    (revise c (revise c doms x y).1 x y).2 = false ∧
    (∀ v, (revise c (revise c doms x y).1 x y).1 v = (revise c doms x y).1 v) := by
  obtain ⟨hxy, hovS⟩ := (c.mem_neighbors x y).mp h
  obtain ⟨ov, hov⟩ := Option.isSome_iff_exists.mp hovS
  have hyx : y ≠ x := fun he => hxy he.symm
  have d1x := revise_apply_x c doms x y ov hov
  have d1y := revise_apply_ne c doms x y y hyx
  constructor
  · intro v
    rw [enforce_apply, enforce_apply c doms v]
    by_cases hm : v ∈ c.vars
    · rw [if_pos hm, if_pos hm, filter_idem]
    · rw [if_neg hm, if_neg hm]
  constructor
  · rw [revise_snd_eq c _ x y ov hov, d1x, d1y]
    rw [show (fun xw => !((doms y).any
        (fun yw => charAt xw ov.1 == charAt yw ov.2))) =
      (fun xw => !((fun xw => (doms y).any
        (fun yw => charAt xw ov.1 == charAt yw ov.2)) xw)) from rfl]
    rw [filter_neg_filter]
    rfl
  · intro v
    by_cases hv : v = x
    · subst hv
      rw [revise_apply_x c _ v y ov hov, d1x, d1y, filter_idem]
    · rw [revise_apply_ne c _ x y v hv]

/-- Witness for C8 at the cat/car crossword: variables 0 and 1 are
neighbors there. -/
theorem filtering_idempotent_witness :
    (∀ v, enforce_node_consistency c4x
        (enforce_node_consistency c4x (initial_domains c4x)) v =
        enforce_node_consistency c4x (initial_domains c4x) v) ∧
    (revise c4x (revise c4x (initial_domains c4x) 0 1).1 0 1).2 = false ∧
    (∀ v, (revise c4x (revise c4x (initial_domains c4x) 0 1).1 0 1).1 v =
        (revise c4x (initial_domains c4x) 0 1).1 v) :=
  filtering_idempotent c4x (initial_domains c4x) 0 1 (by decide)

/-- C5 evidence: `select_unassigned_variable` ignores the degree
tie-break its own docstring promises.  On `c5x` with domains of sizes
2, 2, 3, it returns variable 0 — the first unassigned variable of
minimal domain size — although variable 1 is unassigned, ties it on
domain size, and has strictly more neighbors. -/
theorem select_ignores_degree :
    select_unassigned_variable c5x d5x [] = some 0 ∧
    lookupA ([] : Assignment (Fin 3)) 1 = none ∧
    (d5x 0).length = (d5x 1).length ∧
    (c5x.neighbors 0).length < (c5x.neighbors 1).length := by
  decide

/-- C6 counterexample: `order_domain_values` counts conflicts against
already-assigned neighbors too.  On `c6x` with neighbor 1 of variable
0 assigned, the source returns ab before cd, yet restricted to
*unassigned* neighbors cd eliminates strictly fewer values than ab —
so the returned list is not ascending by the claim's count. -/
theorem order_domain_values_counterexample :
    order_domain_values c6x d6x 0 a6x = [['a', 'b'], ['c', 'd']] ∧
    specConflicts c6x d6x a6x 0 ['c', 'd'] <
      specConflicts c6x d6x a6x 0 ['a', 'b'] := by
  decide

/-- C6 (amended): `order_domain_values` returns exactly the words of
the variable's domain, ordered ascending by the number of conflicting
words over all of the variable's neighbors — the assignment argument
is ignored, so assigned neighbors are counted as well. -/
theorem order_domain_values_sorted (c : Crossword V) (doms : Domains V)
    (var : V) (a : Assignment V) :
    (order_domain_values c doms var a).Perm (doms var) ∧
    (order_domain_values c doms var a).Pairwise
      (fun w1 w2 => conflictCount c doms var w1 ≤ conflictCount c doms var w2) := by
  refine ⟨odv_perm c doms var a, ?_⟩
  unfold order_domain_values
  rw [List.pairwise_map]
  have hsorted : (List.insertionSort leCount
      ((doms var).map (fun w => (w, conflictCount c doms var w)))).Sorted leCount :=
    List.sorted_insertionSort _ _
  have hmem : ∀ p ∈ List.insertionSort leCount
      ((doms var).map (fun w => (w, conflictCount c doms var w))),
      p.2 = conflictCount c doms var p.1 := by
    intro p hp
    have hpl := (List.perm_insertionSort leCount _).mem_iff.mp hp
    rw [List.mem_map] at hpl
    obtain ⟨w, _, hw⟩ := hpl
    rw [← hw]
  exact List.Pairwise.imp_of_mem
    (fun hp hq hpq => by
      rename_i p q
      have hpq2 : p.2 ≤ q.2 := hpq
      rw [hmem p hp, hmem q hq] at hpq2
      exact hpq2)
    hsorted

/-- C10: `ac3()` returning `True` does not guarantee non-empty
domains.  On `c10x` node consistency empties the only variable's
domain; the variable has no neighbors, so the AC-3 queue is empty and
`ac3` returns `True` with the domain still empty. -/
theorem ac3_true_empty_domain :
    (ac3 c10x (enforce_node_consistency c10x (initial_domains c10x))).2 = true ∧
    (ac3 c10x (enforce_node_consistency c10x (initial_domains c10x))).1 0 = [] := by
  have e0 : ac3 c10x (enforce_node_consistency c10x (initial_domains c10x)) =
      (enforce_node_consistency c10x (initial_domains c10x), true) := by
    rw [ac3, ac3Go.eq_def]
    rfl
  rw [e0]
  exact ⟨rfl, by decide⟩

/-! ### AC-3 failure leaves an empty domain; backtracking then fails -/

theorem ac3Go_false_empty (c : Crossword V) :
    ∀ (queue : List (V × V)) (doms : Domains V),
      (ac3Go c queue doms).2 = false →
      ∃ v, (ac3Go c queue doms).1 v = [] := by
  refine ac3Go.induct c
    (fun queue doms => (ac3Go c queue doms).2 = false →
      ∃ v, (ac3Go c queue doms).1 v = []) ?_ ?_ ?_ ?_
  · intro doms h
    rw [ac3Go_nil] at h
    exact Bool.noConfusion h
  · intro doms x y rest r hr hlen h
    rw [ac3Go_cons, if_pos hr, if_pos hlen]
    exact ⟨x, List.length_eq_zero.mp hlen⟩
  · intro doms x y rest r hr hlen ih h
    rw [ac3Go_cons, if_pos hr, if_neg hlen] at h ⊢
    exact ih h
  · intro doms x y rest r hr ih h
    have hrf : ¬((revise c doms x y).2 = true) := hr
    rw [ac3Go_cons, if_neg hrf] at h ⊢
    exact ih h

/-- If some variable's domain is empty and that variable is not yet
assigned, the backtracking search cannot succeed. -/
theorem backtrack_none_of_empty (c : Crossword V) (doms : Domains V) (v0 : V)
    (hd : doms v0 = []) :
    (∀ a, lookupA a v0 = none → backtrack c doms a = none) ∧
    (∀ a var ws (h : var ∈ c.vars ∧ lookupA a var = none),
        lookupA a v0 = none → (∀ w ∈ ws, w ∈ doms var) →
        tryCands c doms a var ws h = none) := by
  refine backtrack.mutual_induct c doms _ _ ?_ ?_ ?_ ?_ ?_ ?_ ?_
  · -- a complete assignment assigns v0, contradiction
    intro a hcomp hnone
    obtain ⟨w, hw⟩ := complete_lookup hcomp v0
    rw [hw] at hnone
    exact Option.noConfusion hnone
  · intro a hcomp hsel hnone
    exact backtrack_of_select_none c doms a (Bool.eq_false_iff.mpr hcomp) hsel
  · intro a hcomp var hsel ih hnone
    rw [backtrack_of_incomplete c doms a var (Bool.eq_false_iff.mpr hcomp) hsel
      (select_spec hsel)]
    exact ih hnone
      (fun w hw => (odv_perm c doms var a).mem_iff.mp hw)
  · intro a var h hnone hsub
    exact tryCands_nil c doms a var h
  · -- the recursive call cannot have succeeded
    intro a var h w rest na hcons result hbt ih1 hnone hsub
    exfalso
    by_cases hvv : var = v0
    · subst hvv
      have : w ∈ doms var := hsub w (List.mem_cons_self w rest)
      rw [hd] at this
      simp at this
    · have hnone2 : lookupA (insertA a var w) v0 = none := by
        rw [lookupA_insert_ne a var v0 w (fun he => hvv he.symm)]
        exact hnone
      rw [ih1 hnone2] at hbt
      exact Option.noConfusion hbt
  · intro a var h w rest na hcons hbt ih1 ih2 hnone hsub
    rw [tryCands_cons, if_pos hcons, hbt]
    show tryCands c doms a var rest h = none
    exact ih2 hnone (fun w2 hw2 => hsub w2 (List.mem_cons_of_mem w hw2))
  · intro a var h w rest na hcons ih2 hnone hsub
    rw [tryCands_cons, if_neg hcons]
    exact ih2 hnone (fun w2 hw2 => hsub w2 (List.mem_cons_of_mem w hw2))

/-- Evaluation of the AC-3 phase on `c2x`: the very first arc's
revision empties the domain of variable 0, and AC-3 reports failure. -/
theorem c2x_ac3_eval :
    (ac3 c2x (enforce_node_consistency c2x (initial_domains c2x))).2 = false := by
  rw [ac3, ac3Go.eq_def]
  rfl

/-- C2 counterexample: the claim says a failing AC-3 phase makes
`solve()` return the no-solution marker *without invoking the
backtracking search*.  On `c2x` the AC-3 phase fails, yet the
instrumented solver records that `backtrack` is invoked — the source
discards `self.ac3()`'s result and calls `self.backtrack(dict())`
unconditionally. -/
theorem solve_no_short_circuit :
    (ac3 c2x (enforce_node_consistency c2x (initial_domains c2x))).2 = false ∧
    (solveT c2x).2 = true :=
  ⟨c2x_ac3_eval, rfl⟩

/-- C2 (amended): `solve()` ignores the result of `ac3()` and always
invokes the backtracking search; nevertheless, when the AC-3 phase
reports failure some domain is empty, the search necessarily fails,
and `solve()` still returns the no-solution marker. -/
theorem solve_none_of_ac3_failure (c : Crossword V)
    (h : (ac3 c (enforce_node_consistency c (initial_domains c))).2 = false) :
    solve c = none ∧ (solveT c).2 = true := by
  refine ⟨?_, rfl⟩
  unfold ac3 at h
  obtain ⟨v0, hv0⟩ := ac3Go_false_empty c _ _ h
  unfold solve ac3
  exact (backtrack_none_of_empty c _ v0 hv0).1 [] rfl

/-- Witness for the amended C2 on the concrete failing crossword. -/
theorem solve_none_of_ac3_failure_witness :
    solve c2x = none ∧ (solveT c2x).2 = true :=
  solve_none_of_ac3_failure c2x c2x_ac3_eval

/-! ### The AC-3 fixpoint (claim C4) -/

theorem neighbors_symm {c : Crossword V} {x y : V} (h : y ∈ c.neighbors x) :
    x ∈ c.neighbors y := by
  obtain ⟨hne, hs⟩ := (c.mem_neighbors x y).mp h
  refine (c.mem_neighbors y x).mpr ⟨fun he => hne he.symm, ?_⟩
  obtain ⟨ov, hov⟩ := Option.isSome_iff_exists.mp hs
  rw [c.overlaps_symm x y, hov]
  rfl

/-- After `revise(x, y)`, `x` is arc consistent with `y`. -/
theorem revise_establishes (c : Crossword V) (doms : Domains V) {x y : V}
    (hne : y ≠ x) : ArcConsistent c (revise c doms x y).1 x y := by
  intro ov hov w hw
  rw [revise_apply_x c doms x y ov hov] at hw
  rw [revise_apply_ne c doms x y y hne]
  rw [List.mem_filter] at hw
  obtain ⟨hw1, hw2⟩ := hw
  rw [List.any_eq_true] at hw2
  obtain ⟨w2, hw2a, hw2b⟩ := hw2
  exact ⟨w2, hw2a, eq_of_beq hw2b⟩

/-- `revise(x, y)` preserves arc consistency of `y` with respect to
`x`: a word it removes from the domain of `x` supported no word of
`y`'s domain — support is symmetric — so no support is lost. -/
theorem revise_preserves_reverse (c : Crossword V) (doms : Domains V) {x y : V}
    (hne : y ≠ x) (hAC : ArcConsistent c doms y x) :
    ArcConsistent c (revise c doms x y).1 y x := by
  intro ov2 hov2 w hw
  rw [revise_apply_ne c doms x y y hne] at hw
  have hov : c.overlaps x y = some (ov2.2, ov2.1) := by
    rw [c.overlaps_symm y x, hov2]
    rfl
  obtain ⟨xw, hxw, hagree⟩ := hAC ov2 hov2 w hw
  rw [revise_apply_x c doms x y (ov2.2, ov2.1) hov]
  refine ⟨xw, ?_, hagree⟩
  rw [List.mem_filter]
  refine ⟨hxw, ?_⟩
  rw [List.any_eq_true]
  exact ⟨w, hw, beq_iff_eq.mpr hagree.symm⟩

/-- Arc consistency survives shrinking the left domain while the
right domain is unchanged. -/
theorem AC_mono_left (c : Crossword V) {d1 d2 : Domains V} {x y : V}
    (hsub : ∀ w, w ∈ d2 x → w ∈ d1 x) (heq : d2 y = d1 y)
    (hAC : ArcConsistent c d1 x y) : ArcConsistent c d2 x y := by
  intro ov hov w hw
  rw [heq]
  exact hAC ov hov w (hsub w hw)

/-- Invariant of the AC-3 worklist: every neighboring arc is either
pending in the queue or already consistent; on success all arcs are
consistent at the end. -/
theorem ac3Go_fixpoint (c : Crossword V) :
    ∀ (queue : List (V × V)) (doms : Domains V),
      (∀ p ∈ queue, p.2 ∈ c.neighbors p.1) →
      (∀ x y, y ∈ c.neighbors x → ((x, y) ∈ queue ∨ ArcConsistent c doms x y)) →
      (ac3Go c queue doms).2 = true →
      ∀ x y, y ∈ c.neighbors x → ArcConsistent c (ac3Go c queue doms).1 x y := by
  refine ac3Go.induct c (fun queue doms =>
    (∀ p ∈ queue, p.2 ∈ c.neighbors p.1) →
    (∀ x y, y ∈ c.neighbors x → ((x, y) ∈ queue ∨ ArcConsistent c doms x y)) →
    (ac3Go c queue doms).2 = true →
    ∀ x y, y ∈ c.neighbors x → ArcConsistent c (ac3Go c queue doms).1 x y)
    ?_ ?_ ?_ ?_
  · -- empty queue: all arcs already consistent and domains final
    intro doms hq hinv htrue x y hxy
    rw [ac3Go_nil]
    rcases hinv x y hxy with hmem | hAC
    · simp at hmem
    · exact hAC
  · -- failure branch contradicts the success hypothesis
    intro doms x y rest r hr hlen hq hinv htrue
    rw [ac3Go_cons, if_pos hr, if_pos hlen] at htrue
    exact absurd htrue (by simp)
  · -- a revision occurred: re-establish the invariant
    intro doms x y rest r hr hlen ih hq hinv htrue u v huv
    rw [ac3Go_cons, if_pos hr, if_neg hlen] at htrue ⊢
    have hxy : y ∈ c.neighbors x := hq (x, y) (List.mem_cons_self _ _)
    have hyx_ne : y ≠ x := fun he => ((c.mem_neighbors x y).mp hxy).1 he.symm
    refine ih ?_ ?_ htrue u v huv
    · -- the new queue still holds only neighboring arcs
      intro p hp
      rcases List.mem_append.mp hp with hp | hp
      · exact hq p (List.mem_cons_of_mem _ hp)
      · rw [List.mem_map] at hp
        obtain ⟨z, hz, hzp⟩ := hp
        rw [← hzp]
        rw [List.mem_filter] at hz
        exact neighbors_symm hz.1
    · -- the invariant for the new queue and revised domains
      intro u2 v2 hu2v2
      rcases hinv u2 v2 hu2v2 with hmem | hAC
      · rcases List.mem_cons.mp hmem with he | hm
        · -- the popped arc itself: consistency was just established
          rw [Prod.mk.injEq] at he
          obtain ⟨he1, he2⟩ := he
          subst he1
          subst he2
          right
          exact revise_establishes c doms hyx_ne
        · left
          exact List.mem_append_left _ hm
      · -- a previously consistent arc
        have hne2 : u2 ≠ v2 := ((c.mem_neighbors u2 v2).mp hu2v2).1
        by_cases hux : u2 = x
        · subst hux
          right
          refine AC_mono_left c (fun w hw => revise_subset c doms u2 y u2 hw) ?_ hAC
          exact revise_apply_ne c doms u2 y v2 (fun he => hne2 he.symm)
        · by_cases hvx : v2 = x
          · subst hvx
            by_cases huy : u2 = y
            · subst huy
              right
              exact revise_preserves_reverse c doms hyx_ne hAC
            · left
              apply List.mem_append_right
              rw [List.mem_map]
              refine ⟨u2, ?_, rfl⟩
              rw [List.mem_filter]
              exact ⟨neighbors_symm hu2v2, by simp [huy]⟩
          · right
            refine AC_mono_left c (fun w hw => ?_) ?_ hAC
            · rw [revise_apply_ne c doms x y u2 hux] at hw
              exact hw
            · exact revise_apply_ne c doms x y v2 hvx
  · -- no revision: the popped arc was already consistent
    intro doms x y rest r hr ih hq hinv htrue u v huv
    have hrf : ¬((revise c doms x y).2 = true) := hr
    rw [ac3Go_cons, if_neg hrf] at htrue ⊢
    refine ih ?_ ?_ htrue u v huv
    · intro p hp
      exact hq p (List.mem_cons_of_mem _ hp)
    · intro u2 v2 hu2
      rcases hinv u2 v2 hu2 with hmem | hAC
      · rcases List.mem_cons.mp hmem with he | hm
        · rw [Prod.mk.injEq] at he
          obtain ⟨he1, he2⟩ := he
          subst he1
          subst he2
          right
          intro ov hov w hw
          have hsupp := revise_false_support c doms u2 v2 ov hov
            (Bool.eq_false_iff.mpr hr) w hw
          rw [List.any_eq_true] at hsupp
          obtain ⟨w2, h2a, h2b⟩ := hsupp
          exact ⟨w2, h2a, eq_of_beq h2b⟩
        · left
          exact hm
      · right
        exact hAC

/-- C4: after a successful `ac3()` with no initial arc list, the
domains are at an arc-consistent fixpoint — for every ordered pair of
neighboring variables with overlap indices (ix, iy), every word left
in the first domain agrees with some word left in the second at those
indices. -/
theorem ac3_fixpoint (c : Crossword V) (doms : Domains V)
    (h : (ac3 c doms).2 = true) :
    ∀ x y ix iy, y ∈ c.neighbors x → c.overlaps x y = some (ix, iy) →
      ∀ w ∈ (ac3 c doms).1 x, ∃ w2 ∈ (ac3 c doms).1 y,
        charAt w ix = charAt w2 iy := by
  intro x y ix iy hxy hov w hw
  unfold ac3 at h hw ⊢
  have hq : ∀ p ∈ c.vars.flatMap (fun v => (c.neighbors v).map (fun u => (v, u))),
      p.2 ∈ c.neighbors p.1 := by
    intro p hp
    rw [List.mem_flatMap] at hp
    obtain ⟨v, hv, hp2⟩ := hp
    rw [List.mem_map] at hp2
    obtain ⟨u, hu, he⟩ := hp2
    rw [← he]
    exact hu
  have hinv : ∀ x2 y2, y2 ∈ c.neighbors x2 →
      ((x2, y2) ∈ c.vars.flatMap (fun v => (c.neighbors v).map (fun u => (v, u))) ∨
        ArcConsistent c doms x2 y2) := by
    intro x2 y2 h2
    left
    rw [List.mem_flatMap]
    refine ⟨x2, c.vars_complete x2, ?_⟩
    rw [List.mem_map]
    exact ⟨y2, h2, rfl⟩
  exact ac3Go_fixpoint c _ doms hq hinv h x y hxy (ix, iy) hov w hw

/-- Evaluation of the AC-3 phase on the cat/car crossword: both arcs
are already supported (both words carry the letter a at index 1), so
no revision occurs and AC-3 succeeds. -/
theorem c4x_ac3_eval :
    ac3 c4x (enforce_node_consistency c4x (initial_domains c4x)) =
      (enforce_node_consistency c4x (initial_domains c4x), true) := by
  have e0 : ac3 c4x (enforce_node_consistency c4x (initial_domains c4x)) =
      ac3Go c4x [((0 : Fin 2), (1 : Fin 2)), (1, 0)]
        (enforce_node_consistency c4x (initial_domains c4x)) := rfl
  have e1 : ac3Go c4x [((0 : Fin 2), (1 : Fin 2)), (1, 0)]
        (enforce_node_consistency c4x (initial_domains c4x)) =
      ac3Go c4x [((1 : Fin 2), (0 : Fin 2))]
        (enforce_node_consistency c4x (initial_domains c4x)) := by
    conv_lhs => rw [ac3Go.eq_def]
    rfl
  have e2 : ac3Go c4x [((1 : Fin 2), (0 : Fin 2))]
        (enforce_node_consistency c4x (initial_domains c4x)) =
      ac3Go c4x []
        (enforce_node_consistency c4x (initial_domains c4x)) := by
    conv_lhs => rw [ac3Go.eq_def]
    rfl
  rw [e0, e1, e2, ac3Go_nil]

/-- Witness for C4 at the cat/car crossword, whose AC-3 run succeeds:
the word cat kept for variable 0 has a partner for variable 1 agreeing
at the overlap indices (1, 1). -/
theorem ac3_fixpoint_witness :
    ∃ w2 ∈ (ac3 c4x (enforce_node_consistency c4x (initial_domains c4x))).1 1,
      charAt ['c', 'a', 't'] 1 = charAt w2 1 :=
  ac3_fixpoint c4x (enforce_node_consistency c4x (initial_domains c4x))
    (by rw [c4x_ac3_eval]) 0 1 1 1 (by decide) (by decide) ['c', 'a', 't']
    (by rw [c4x_ac3_eval]; decide)

/-! ### Completeness (claim C3) -/

theorem enforce_preserves (c : Crossword V) (f : V → Word)
    (hlen : ∀ v, (f v).length = c.len v) (doms : Domains V)
    (h : ∀ v, f v ∈ doms v) : ∀ v, f v ∈ enforce_node_consistency c doms v := by
  intro v
  rw [enforce_apply]
  by_cases hm : v ∈ c.vars
  · rw [if_pos hm, List.mem_filter]
    refine ⟨h v, ?_⟩
    rw [hlen v]
    simp
  · rw [if_neg hm]
    exact h v

theorem revise_preserves (c : Crossword V) (f : V → Word)
    (hagree : ∀ x y ov, c.overlaps x y = some ov →
      charAt (f x) ov.1 = charAt (f y) ov.2)
    (doms : Domains V) (h : ∀ v, f v ∈ doms v) (x y : V) :
    ∀ v, f v ∈ (revise c doms x y).1 v := by
  intro v
  by_cases hv : v = x
  · subst hv
    cases hovc : c.overlaps v y with
    | none =>
      rw [revise_apply_of_none c doms v y hovc]
      exact h v
    | some ov =>
      rw [revise_apply_x c doms v y ov hovc, List.mem_filter]
      refine ⟨h v, ?_⟩
      rw [List.any_eq_true]
      exact ⟨f y, h y, beq_iff_eq.mpr (hagree v y ov hovc)⟩
  · rw [revise_apply_ne c doms x y v hv]
    exact h v

theorem ac3Go_preserves (c : Crossword V) (f : V → Word)
    (hagree : ∀ x y ov, c.overlaps x y = some ov →
      charAt (f x) ov.1 = charAt (f y) ov.2) :
    ∀ (queue : List (V × V)) (doms : Domains V),
      (∀ v, f v ∈ doms v) → ∀ v, f v ∈ (ac3Go c queue doms).1 v := by
  refine ac3Go.induct c (fun queue doms =>
    (∀ v, f v ∈ doms v) → ∀ v, f v ∈ (ac3Go c queue doms).1 v) ?_ ?_ ?_ ?_
  · intro doms h v
    rw [ac3Go_nil]
    exact h v
  · intro doms x y rest r hr hlen h v
    rw [ac3Go_cons, if_pos hr, if_pos hlen]
    exact revise_preserves c f hagree doms h x y v
  · intro doms x y rest r hr hlen ih h v
    rw [ac3Go_cons, if_pos hr, if_neg hlen]
    exact ih (revise_preserves c f hagree doms h x y) v
  · intro doms x y rest r hr ih h v
    have hrf : ¬((revise c doms x y).2 = true) := hr
    rw [ac3Go_cons, if_neg hrf]
    exact ih h v

theorem lookupA_none_not_mem_keys {a : Assignment V} {var : V}
    (hnone : lookupA a var = none) : var ∉ a.map Prod.fst := by
  intro hm
  rw [List.mem_map] at hm
  obtain ⟨p, hp, hfst⟩ := hm
  obtain ⟨pv, pw⟩ := p
  have he : pv = var := hfst
  subst he
  have hs := lookupA_isSome_of_mem hp
  rw [hnone] at hs
  exact Bool.noConfusion hs

theorem keys_nodup_insert (a : Assignment V) (var : V) (w : Word)
    (hnone : lookupA a var = none) (hkeys : (a.map Prod.fst).Nodup) :
    ((insertA a var w).map Prod.fst).Nodup := by
  unfold insertA
  rw [List.map_append]
  rw [List.nodup_append]
  refine ⟨hkeys, List.nodup_singleton var, ?_⟩
  intro v hv1 hv2
  rw [show (List.map Prod.fst [(var, w)]) = [var] from rfl, List.mem_singleton] at hv2
  subst hv2
  exact lookupA_none_not_mem_keys hnone hv1

/-- A duplicate-key-free association list all of whose entries agree
with a total solution passes the `consistent` check. -/
theorem consistent_of_sub (c : Crossword V) (f : V → Word) (hsol : IsSolution c f)
    (a : Assignment V) (hsub : ∀ p ∈ a, p.2 = f p.1)
    (hkeys : (a.map Prod.fst).Nodup) : consistent c a = true := by
  obtain ⟨hw, hlen, hinj, hagree⟩ := hsol
  unfold consistent
  rw [Bool.and_eq_true]
  constructor
  · apply decide_eq_true
    have hmap : a.map Prod.snd = (a.map Prod.fst).map f := by
      rw [List.map_map]
      apply List.map_congr_left
      intro p hp
      exact hsub p hp
    rw [hmap]
    exact hkeys.map hinj
  · rw [List.all_eq_true]
    intro p hp
    rw [Bool.and_eq_true]
    constructor
    · rw [hsub p hp]
      exact beq_iff_eq.mpr (hlen p.1)
    · rw [List.all_eq_true]
      intro u hu
      cases hovc : c.overlaps p.1 u with
      | none => simp only [hovc]
      | some ov =>
        simp only [hovc]
        cases hlu : lookupA a u with
        | none => simp only [hlu]
        | some wu =>
          simp only [hlu]
          have hwu : wu = f u := hsub (u, wu) (lookupA_mem hlu)
          rw [hsub p hp, hwu]
          exact beq_iff_eq.mpr (hagree p.1 u ov hovc)

/-- If a total solution survives in the domains, the backtracking
search succeeds from any agreeing duplicate-free partial assignment. -/
theorem backtrack_finds (c : Crossword V) (doms : Domains V) (f : V → Word)
    (hsol : IsSolution c f) (hd : ∀ v, f v ∈ doms v) :
    (∀ a, (∀ p ∈ a, p.2 = f p.1) → (a.map Prod.fst).Nodup →
        ∃ r, backtrack c doms a = some r) ∧
    (∀ a var ws (h : var ∈ c.vars ∧ lookupA a var = none),
        (∀ p ∈ a, p.2 = f p.1) → (a.map Prod.fst).Nodup → f var ∈ ws →
        ∃ r, tryCands c doms a var ws h = some r) := by
  refine backtrack.mutual_induct c doms _ _ ?_ ?_ ?_ ?_ ?_ ?_ ?_
  · intro a hcomp hsub hkeys
    exact ⟨a, backtrack_of_complete c doms a hcomp⟩
  · -- an incomplete assignment always selects a variable
    intro a hcomp hsel hsub hkeys
    obtain ⟨var, hv⟩ :=
      select_isSome_of_incomplete c doms a (Bool.eq_false_iff.mpr hcomp)
    rw [hv] at hsel
    exact Option.noConfusion hsel
  · intro a hcomp var hsel ih hsub hkeys
    obtain ⟨r, hr⟩ := ih hsub hkeys (mem_odv (hd var))
    refine ⟨r, ?_⟩
    rw [backtrack_of_incomplete c doms a var (Bool.eq_false_iff.mpr hcomp) hsel
      (select_spec hsel)]
    exact hr
  · intro a var h hsub hkeys hmem
    simp at hmem
  · intro a var h w rest na hcons result hbt ih1 hsub hkeys hmem
    refine ⟨result, ?_⟩
    rw [tryCands_cons, if_pos hcons, hbt]
  · intro a var h w rest na hcons hbt ih1 ih2 hsub hkeys hmem
    by_cases hwf : w = f var
    · exfalso
      subst hwf
      have hsub2 : ∀ p ∈ insertA a var (f var), p.2 = f p.1 := by
        intro p hp
        rcases List.mem_append.mp hp with hp | hp
        · exact hsub p hp
        · rw [List.mem_singleton] at hp
          subst hp
          rfl
      obtain ⟨r, hr⟩ := ih1 hsub2 (keys_nodup_insert a var (f var) h.2 hkeys)
      rw [hbt] at hr
      exact Option.noConfusion hr
    · have hmem2 : f var ∈ rest := by
        rcases List.mem_cons.mp hmem with he | hm
        · exact absurd he.symm hwf
        · exact hm
      obtain ⟨r, hr⟩ := ih2 hsub hkeys hmem2
      refine ⟨r, ?_⟩
      rw [tryCands_cons, if_pos hcons, hbt]
      exact hr
  · intro a var h w rest na hcons ih2 hsub hkeys hmem
    by_cases hwf : w = f var
    · exfalso
      subst hwf
      apply hcons
      apply consistent_of_sub c f hsol (insertA a var (f var)) ?_
        (keys_nodup_insert a var (f var) h.2 hkeys)
      intro p hp
      rcases List.mem_append.mp hp with hp | hp
      · exact hsub p hp
      · rw [List.mem_singleton] at hp
        subst hp
        rfl
    · have hmem2 : f var ∈ rest := by
        rcases List.mem_cons.mp hmem with he | hm
        · exact absurd he.symm hwf
        · exact hm
      obtain ⟨r, hr⟩ := ih2 hsub hkeys hmem2
      refine ⟨r, ?_⟩
      rw [tryCands_cons, if_neg hcons]
      exact hr

/-- C3: whenever a satisfying complete assignment exists — every
variable gets a word of the list of its length, words pairwise
distinct, all overlap constraints satisfied — `solve()` returns some
assignment that is complete and consistent, never the no-solution
marker. -/
theorem solve_complete (c : Crossword V) (f : V → Word) (h : IsSolution c f) :
    ∃ a, solve c = some a ∧ assignment_complete c a = true ∧
      consistent c a = true := by
  have hd0 : ∀ v, f v ∈ initial_domains c v := fun v => h.1 v
  have hd1 : ∀ v, f v ∈ enforce_node_consistency c (initial_domains c) v :=
    enforce_preserves c f h.2.1 _ hd0
  have hd2 : ∀ v, f v ∈ (ac3 c (enforce_node_consistency c (initial_domains c))).1 v := by
    unfold ac3
    exact ac3Go_preserves c f h.2.2.2 _ _ hd1
  obtain ⟨r, hr⟩ := (backtrack_finds c _ f h hd2).1 []
    (by intro p hp; simp at hp) (by simp)
  have hsolve : solve c = some r := by
    unfold solve
    exact hr
  refine ⟨r, hsolve, ((backtrack_sound c _).1 [] r hr).1, ?_⟩
  rcases ((backtrack_sound c _).1 [] r hr).2 with hc | he
  · exact hc
  · rw [he]
    exact consistent_nil c

/-- Witness for C3: the 1×1 example with the constant solution a. -/
theorem solve_complete_witness :
    ∃ a, solve c1x = some a ∧ assignment_complete c1x a = true ∧
      consistent c1x a = true :=
  solve_complete c1x (fun _ => ['a'])
    ⟨by decide, by decide, fun v1 v2 _ => Subsingleton.elim v1 v2,
      fun x y ov hov => Option.noConfusion hov⟩

/-- C9: the candidate loop leaves no trace.  Each candidate is tried
on the assignment extended with the selected variable only — the
extension maps `var` to the candidate and agrees with the previous
assignment everywhere else — and when a candidate fails the next
candidate is evaluated against exactly the original assignment, which
the caller also keeps unchanged (the source copies the dict before
extending it). -/
theorem backtrack_frame (c : Crossword V) (doms : Domains V) (a : Assignment V)
    (var : V) (w : Word) (ws : List Word)
    (h : var ∈ c.vars ∧ lookupA a var = none) :
    lookupA (insertA a var w) var = some w ∧
    (∀ v, v ≠ var → lookupA (insertA a var w) v = lookupA a v) ∧
    tryCands c doms a var (w :: ws) h =
      ((if consistent c (insertA a var w) = true
          then backtrack c doms (insertA a var w) else none).orElse
        (fun _ => tryCands c doms a var ws h)) := by
  refine ⟨lookupA_insert_self a var w h.2,
    fun v hv => lookupA_insert_ne a var v w hv, ?_⟩
  rw [tryCands_cons]
  by_cases hc : consistent c (insertA a var w) = true
  · rw [if_pos hc, if_pos hc]
    cases hbt : backtrack c doms (insertA a var w) with
    | none => rfl
    | some r => rfl
  · rw [if_neg hc, if_neg hc]
    rfl

/-- Witness for C9 on the 1×1 example with candidate b. -/
theorem backtrack_frame_witness :
    lookupA (insertA [] (0 : Fin 1) ['b']) 0 = some ['b'] ∧
    (∀ v, v ≠ (0 : Fin 1) →
        lookupA (insertA [] (0 : Fin 1) ['b']) v = lookupA [] v) ∧
    tryCands c1x (initial_domains c1x) [] 0 [['b']] ⟨by decide, rfl⟩ =
      ((if consistent c1x (insertA [] (0 : Fin 1) ['b']) = true
          then backtrack c1x (initial_domains c1x) (insertA [] (0 : Fin 1) ['b'])
          else none).orElse
        (fun _ => tryCands c1x (initial_domains c1x) [] 0 [] ⟨by decide, rfl⟩)) :=
  backtrack_frame c1x (initial_domains c1x) [] 0 ['b'] [] ⟨by decide, rfl⟩
